import Mathlib

/-!
Verification development for the source-synchronization and chunking pipeline
of the `brain` repository (Rust). Strings are modelled as `List Char`;
Rust `usize` arithmetic is modelled by `Nat` (with `Nat` truncated subtraction
standing for `saturating_sub`). Fallible operations return `Option`.

Section 1: character-level primitives used by `src/loaders/chunker.rs`
(`split_whitespace`, `trim`, joining with separators, `lines`).
-/

/-- Whitespace predicate modelling Rust's `char::is_whitespace` on the
whitespace characters relevant to this development (ASCII whitespace). -/
def isWsChar (c : Char) : Bool :=
  c = ' ' || c = '\t' || c = '\n' || c = '\r' || c = '\x0b' || c = '\x0c'

/-- Accumulator worker for `splitWs`; `cur` holds the current in-progress
word reversed. Models Rust `str::split_whitespace`. -/
def splitWsAux : List Char → List Char → List (List Char)
  | [], cur => if cur = [] then [] else [cur.reverse]
  | c :: cs, cur =>
    if isWsChar c then
      if cur = [] then splitWsAux cs [] else cur.reverse :: splitWsAux cs []
    else
      splitWsAux cs (c :: cur)

/-- `split_whitespace`: split into maximal runs of non-whitespace characters. -/
def splitWs (s : List Char) : List (List Char) :=
  splitWsAux s []

/-- Join a list of words with a single space, modelling
`Vec::join(" ")` on string slices. -/
def joinSp : List (List Char) → List Char
  | [] => []
  | [w] => w
  | w :: x :: ws => w ++ ' ' :: joinSp (x :: ws)

/-- `str::trim`: drop leading and trailing whitespace. -/
def trimStr (s : List Char) : List Char :=
  ((s.dropWhile isWsChar).reverse.dropWhile isWsChar).reverse

/-- A word is "good" when it is nonempty and contains no whitespace
character — exactly the shape of every token produced by `splitWs`. -/
def GoodWord (w : List Char) : Prop :=
  w ≠ [] ∧ ∀ c ∈ w, isWsChar c = false

theorem goodWord_of_mem_splitWsAux {s cur : List Char}
    (hcur : ∀ c ∈ cur, isWsChar c = false) :
    ∀ w ∈ splitWsAux s cur, GoodWord w := by
  induction s generalizing cur with
  | nil =>
    intro w hw
    by_cases h : cur = []
    · simp [splitWsAux, h] at hw
    · simp [splitWsAux, h] at hw
      subst hw
      refine ⟨by simpa using h, ?_⟩
      intro c hc
      exact hcur c (List.mem_reverse.mp hc)
  | cons c cs ih =>
    intro w hw
    by_cases hws : isWsChar c = true
    · by_cases h : cur = []
      · simp [splitWsAux, hws, h] at hw
        exact ih (by simp) w hw
      · simp [splitWsAux, hws, h] at hw
        rcases hw with hw | hw
        · subst hw
          refine ⟨by simpa using h, ?_⟩
          intro x hx
          exact hcur x (List.mem_reverse.mp hx)
        · exact ih (by simp) w hw
    · simp at hws
      simp [splitWsAux, hws] at hw
      refine ih ?_ w hw
      intro x hx
      rcases List.mem_cons.mp hx with h | h
      · subst h; exact hws
      · exact hcur x h

/-- Every token produced by `splitWs` is nonempty and whitespace-free. -/
theorem goodWord_of_mem_splitWs {s : List Char} :
    ∀ w ∈ splitWs s, GoodWord w :=
  goodWord_of_mem_splitWsAux (by simp)

theorem splitWsAux_append_word {w : List Char} (hw : ∀ c ∈ w, isWsChar c = false) :
    ∀ (s cur : List Char), splitWsAux (w ++ s) cur = splitWsAux s (w.reverse ++ cur) := by
  induction w with
  | nil => intro s cur; simp
  | cons c cs ih =>
    intro s cur
    have hc : isWsChar c = false := hw c (by simp)
    have hcs : ∀ x ∈ cs, isWsChar x = false := fun x hx => hw x (by simp [hx])
    simp [splitWsAux, hc, ih hcs]

/-- Round trip: splitting a space-joined list of good words recovers the words. -/
theorem splitWs_joinSp {ws : List (List Char)} (h : ∀ w ∈ ws, GoodWord w) :
    splitWs (joinSp ws) = ws := by
  induction ws with
  | nil => simp [joinSp, splitWs, splitWsAux]
  | cons w ws ih =>
    obtain ⟨hw, hwchars⟩ := h w (by simp)
    have hrest : ∀ x ∈ ws, GoodWord x := fun x hx => h x (by simp [hx])
    cases ws with
    | nil =>
      have h1 := splitWsAux_append_word hwchars [] []
      simp only [List.append_nil] at h1
      simp only [joinSp, splitWs, h1, splitWsAux]
      rw [if_neg (by simpa using hw)]
      simp
    | cons w2 ws2 =>
      have h1 := splitWsAux_append_word hwchars (' ' :: joinSp (w2 :: ws2)) []
      simp only [List.append_nil] at h1
      simp only [joinSp, splitWs] at ih ⊢
      rw [h1]
      have hsp : isWsChar ' ' = true := by decide
      simp only [splitWsAux, hsp, if_true]
      rw [if_neg (by simpa using hw)]
      simp only [List.reverse_reverse]
      rw [ih hrest]

/-- A list whose trim is empty consists of whitespace only. -/
theorem all_ws_of_trimStr_eq_nil {s : List Char} (h : trimStr s = []) :
    ∀ c ∈ s, isWsChar c = true := by
  unfold trimStr at h
  have h1 : (s.dropWhile isWsChar).reverse.dropWhile isWsChar = [] := by
    simpa using congrArg List.reverse h
  have h2 : ∀ c ∈ (s.dropWhile isWsChar).reverse, isWsChar c = true :=
    List.dropWhile_eq_nil_iff.mp h1
  have h3 : ∀ c ∈ s.dropWhile isWsChar, isWsChar c = true := by
    intro c hc
    exact h2 c (List.mem_reverse.mpr hc)
  intro c hc
  by_cases hw : isWsChar c = true
  · exact hw
  · exfalso
    have hne : s.dropWhile isWsChar ≠ [] := by
      intro habs
      have := List.dropWhile_eq_nil_iff.mp habs c hc
      exact hw this
    -- s = prefix (all ws) ++ dropWhile result; c is somewhere in s with ¬ws,
    -- so it must be in the dropWhile result, contradicting h3 ... but easier:
    -- the head of dropWhile is ¬ws, contradicting h3 directly.
    obtain ⟨d, ds, hd⟩ := List.exists_cons_of_ne_nil hne
    have hdw : isWsChar d = false := by
      have := List.head?_dropWhile_not isWsChar s
      rw [hd] at this
      simpa using this
    have := h3 d (by rw [hd]; simp)
    rw [hdw] at this
    exact absurd this (by simp)

/-- The space-join of a nonempty list of good words does not trim to empty. -/
theorem trimStr_joinSp_ne_nil {ws : List (List Char)} (hws : ws ≠ [])
    (h : ∀ w ∈ ws, GoodWord w) : trimStr (joinSp ws) ≠ [] := by
  obtain ⟨w, rest, rfl⟩ := List.exists_cons_of_ne_nil hws
  obtain ⟨hw, hchars⟩ := h w (by simp)
  obtain ⟨c, cs, rfl⟩ := List.exists_cons_of_ne_nil hw
  intro habs
  have hmem : c ∈ joinSp ((c :: cs) :: rest) := by
    cases rest with
    | nil => simp [joinSp]
    | cons r rs => simp [joinSp]
  have := all_ws_of_trimStr_eq_nil habs c hmem
  have hcf : isWsChar c = false := hchars c (by simp)
  rw [hcf] at this
  exact absurd this (by simp)

/-!
Section 2: the chunker itself, translated from `src/loaders/chunker.rs`.
-/

/-- `Chunk` record from `chunker.rs`: content plus its emitted ordinal. -/
structure Chunk where
  content : List Char
  index : Nat
deriving Repr, DecidableEq

/-- `TextChunker` configuration record from `chunker.rs`. -/
structure TextChunker where
  chunk_size : Nat
  chunk_overlap : Nat
deriving Repr, DecidableEq

/-- The body of the `while start < words.len()` loop of `TextChunker::chunk`,
with explicit fuel. Returns `none` when fuel runs out, which (together with
fuel-monotonicity and the divergence lemma below) models non-termination of
the Rust loop. `start = end.saturating_sub(chunk_overlap)` is Nat
subtraction. -/
def chunkGo (size ov : Nat) (words : List (List Char)) :
    Nat → Nat → Nat → List Chunk → Option (List Chunk)
  | 0, _, _, _ => none
  | fuel + 1, start, index, acc =>
    if start < words.length then
      let e := min (start + size) words.length
      let chunkWords := (words.drop start).take size
      let content := joinSp chunkWords
      let acc2 := if trimStr content = [] then acc else acc ++ [⟨content, index⟩]
      let idx2 := if trimStr content = [] then index else index + 1
      if words.length ≤ e then some acc2
      else chunkGo size ov words fuel (e - ov) idx2 acc2
    else
      some acc

/-- `TextChunker::chunk`: split into whitespace tokens and slide a window.
`(splitWs text).length + 1` iterations of fuel suffice for every terminating
configuration (proved below); `none` marks the configurations on which the
Rust loop never terminates. -/
def TextChunker.chunk (self : TextChunker) (text : List Char) : Option (List Chunk) :=
  chunkGo self.chunk_size self.chunk_overlap (splitWs text)
    ((splitWs text).length + 1) 0 0 []

/-- Divergence: when `chunk_overlap ≥ chunk_size` and the window never reaches
the end, the start position never advances and the loop runs forever (no
amount of fuel yields a result). -/
theorem chunkGo_diverges {size ov : Nat} {words : List (List Char)}
    (hov : size ≤ ov) :
    ∀ fuel start idx acc, start + size < words.length →
      chunkGo size ov words fuel start idx acc = none := by
  intro fuel
  induction fuel with
  | zero => intro start idx acc _; rfl
  | succ n ih =>
    intro start idx acc hlt
    have hstart : start < words.length := by omega
    have he : min (start + size) words.length = start + size := by omega
    have hnotend : ¬ (words.length ≤ min (start + size) words.length) := by omega
    simp only [chunkGo, hstart, if_true, hnotend, if_false]
    apply ih
    omega

/-- The loop never returns fewer often than it could: the claim-level
divergence statement used by the C2 counterexample. -/
def chunkLoopDiverges (self : TextChunker) (text : List Char) : Prop :=
  ∀ fuel idx acc,
    chunkGo self.chunk_size self.chunk_overlap (splitWs text) fuel 0 idx acc = none

/-- Termination: with `chunk_overlap < chunk_size` (strict progress) or at
most `chunk_size` tokens (single window), enough fuel yields a result. -/
theorem chunkGo_terminates {size ov : Nat} {words : List (List Char)}
    (h : ov < size ∨ words.length ≤ size) :
    ∀ fuel start idx acc, words.length - start < fuel →
      ∃ res, chunkGo size ov words fuel start idx acc = some res := by
  intro fuel
  induction fuel with
  | zero => intro start idx acc hf; omega
  | succ n ih =>
    intro start idx acc hf
    by_cases hstart : start < words.length
    · by_cases hend : words.length ≤ min (start + size) words.length
      · simp only [chunkGo, hstart, if_true, hend, if_true]
        exact ⟨_, rfl⟩
      · rcases h with hp | hs
        · have he : min (start + size) words.length = start + size := by omega
          simp only [chunkGo, hstart, if_true, hend, if_false]
          apply ih
          omega
        · exfalso; omega
    · exact ⟨acc, by simp [chunkGo, hstart]⟩

/-- The sequence of windows the loop walks through, as a relation: starting
from `start`, each chunk is the space-join of the window
`words[start..start+size]`, and the next window begins at
`start + size - chunk_overlap` (Nat subtraction, as in the code). -/
inductive WindowChain (size ov : Nat) (words : List (List Char)) :
    Nat → List Chunk → Prop
  | last (start idx : Nat) (h : words.length ≤ start + size) :
      WindowChain size ov words start [⟨joinSp ((words.drop start).take size), idx⟩]
  | step (start idx : Nat) (rest : List Chunk) (h : start + size < words.length)
      (hrest : WindowChain size ov words (start + size - ov) rest) :
      WindowChain size ov words start
        (⟨joinSp ((words.drop start).take size), idx⟩ :: rest)

theorem WindowChain.head_shape {size ov : Nat} {words : List (List Char)}
    {s : Nat} {t : List Chunk} (h : WindowChain size ov words s t) :
    ∃ idx rest, t = (⟨joinSp ((words.drop s).take size), idx⟩ : Chunk) :: rest := by
  cases h with
  | last s idx h => exact ⟨idx, [], rfl⟩
  | step s idx rest h hrest => exact ⟨idx, rest, rfl⟩

theorem WindowChain.ne_nil {size ov : Nat} {words : List (List Char)}
    {s : Nat} {t : List Chunk} (h : WindowChain size ov words s t) : t ≠ [] := by
  obtain ⟨idx, rest, rfl⟩ := h.head_shape
  simp

/-- A window slice is made of good words and is nonempty while the loop runs. -/
theorem slice_good {words : List (List Char)} (hgood : ∀ w ∈ words, GoodWord w)
    (start n : Nat) : ∀ w ∈ (words.drop start).take n, GoodWord w :=
  fun w hw => hgood w (List.drop_subset start words (List.take_subset n _ hw))

theorem slice_ne_nil {words : List (List Char)} {start size : Nat}
    (hstart : start < words.length) (hsz : 1 ≤ size) :
    (words.drop start).take size ≠ [] := by
  apply List.length_pos.mp
  rw [List.length_take, List.length_drop]
  omega

/-- Structure of a successful run of the loop: the result extends the
accumulator with a `WindowChain` starting at the current position. -/
theorem chunkGo_windowChain {size ov : Nat} {words : List (List Char)}
    (hgood : ∀ w ∈ words, GoodWord w) (hsz : 1 ≤ size) :
    ∀ fuel start idx acc res, start < words.length →
      chunkGo size ov words fuel start idx acc = some res →
      ∃ tail, res = acc ++ tail ∧ WindowChain size ov words start tail := by
  intro fuel
  induction fuel with
  | zero => intro start idx acc res hstart h; exact absurd h (by simp [chunkGo])
  | succ n ih =>
    intro start idx acc res hstart h
    have hguard : trimStr (joinSp ((words.drop start).take size)) ≠ [] :=
      trimStr_joinSp_ne_nil (slice_ne_nil hstart hsz) (slice_good hgood start size)
    simp only [chunkGo, hstart, if_true] at h
    rw [if_neg hguard, if_neg hguard] at h
    by_cases hend : words.length ≤ min (start + size) words.length
    · rw [if_pos hend] at h
      injection h with h2
      refine ⟨[⟨joinSp ((words.drop start).take size), idx⟩], h2.symm, ?_⟩
      exact WindowChain.last start idx (by omega)
    · rw [if_neg hend] at h
      have he : min (start + size) words.length = start + size := by omega
      rw [he] at h
      have hstart2 : start + size - ov < words.length := by omega
      obtain ⟨tail, htail, hchain⟩ := ih (start + size - ov) _ _ res hstart2 h
      refine ⟨⟨joinSp ((words.drop start).take size), idx⟩ :: tail, ?_, ?_⟩
      · rw [htail]; simp
      · exact WindowChain.step start idx tail (by omega) hchain

/-- Default chunk used with `List.getD` in statements. -/
def dChunk : Chunk := ⟨[], 0⟩

/-- Tokens of a chunk, as the claims speak about them. -/
def chunkTokens (c : Chunk) : List (List Char) :=
  splitWs c.content

/-- Consecutive windows in a chain overlap in exactly `chunk_overlap` token
positions: every non-final chunk holds exactly `chunk_size` tokens, the next
chunk's first `chunk_overlap` tokens are the previous chunk's last
`chunk_overlap` tokens, and the next chunk extends strictly beyond them. -/
theorem windowChain_pairwise {size ov : Nat} {words : List (List Char)}
    (hgood : ∀ w ∈ words, GoodWord w) (hov : ov < size) :
    ∀ {s : Nat} {t : List Chunk}, WindowChain size ov words s t →
      ∀ i, i + 1 < t.length →
        (chunkTokens (t.getD i dChunk)).length = size ∧
        (chunkTokens (t.getD (i + 1) dChunk)).take ov
          = (chunkTokens (t.getD i dChunk)).drop (size - ov) ∧
        ov < (chunkTokens (t.getD (i + 1) dChunk)).length := by
  intro s t h
  induction h with
  | last s idx hlast => intro i hi; simp at hi
  | step s idx rest hstep hrest ih =>
    intro i hi
    cases i with
    | succ j =>
      have hj : j + 1 < rest.length := by simpa using hi
      simpa using ih j hj
    | zero =>
      obtain ⟨idx2, rest2, hshape⟩ := hrest.head_shape
      have hslice : chunkTokens (⟨joinSp ((words.drop s).take size), idx⟩ : Chunk)
          = (words.drop s).take size := by
        unfold chunkTokens
        exact splitWs_joinSp (slice_good hgood s size)
      have hslice2 : chunkTokens (⟨joinSp ((words.drop (s + size - ov)).take size), idx2⟩ : Chunk)
          = (words.drop (s + size - ov)).take size := by
        unfold chunkTokens
        exact splitWs_joinSp (slice_good hgood (s + size - ov) size)
      have hget0 : ((⟨joinSp ((words.drop s).take size), idx⟩ : Chunk) :: rest).getD 0 dChunk
          = ⟨joinSp ((words.drop s).take size), idx⟩ := rfl
      have hget1 : ((⟨joinSp ((words.drop s).take size), idx⟩ : Chunk) :: rest).getD 1 dChunk
          = ⟨joinSp ((words.drop (s + size - ov)).take size), idx2⟩ := by
        rw [hshape]; rfl
      rw [hget0, hget1, hslice, hslice2]
      have hlen0 : ((words.drop s).take size).length = size := by
        rw [List.length_take, List.length_drop]; omega
      have hlen1 : ((words.drop (s + size - ov)).take size).length
          = min size (words.length - (s + size - ov)) := by
        rw [List.length_take, List.length_drop]
      refine ⟨hlen0, ?_, by omega⟩
      rw [List.take_take]
      have hmin : ov ⊓ size = ov := by omega
      rw [hmin, List.drop_take, List.drop_drop]
      have h1 : size - (size - ov) = ov := by omega
      have h2 : s + (size - ov) = s + size - ov := by omega
      rw [h1, h2]

/-- Reconstruction of the token stream from a chunk list: the first chunk's
tokens, then each later chunk's tokens with the first `k` (the shared
overlap) removed. -/
def reconTokens (k : Nat) : List Chunk → List (List Char)
  | [] => []
  | c :: rest =>
      chunkTokens c ++ (rest.map fun c2 => (chunkTokens c2).drop k).flatten

theorem windowChain_recon {size ov : Nat} {words : List (List Char)}
    (hgood : ∀ w ∈ words, GoodWord w) (hov : ov ≤ size) :
    ∀ {s : Nat} {t : List Chunk}, WindowChain size ov words s t →
      reconTokens ov t = words.drop s := by
  intro s t h
  induction h with
  | last s idx hlast =>
    have hslice : chunkTokens (⟨joinSp ((words.drop s).take size), idx⟩ : Chunk)
        = (words.drop s).take size :=
      splitWs_joinSp (slice_good hgood s size)
    have htake : (words.drop s).take size = words.drop s := by
      apply List.take_of_length_le
      rw [List.length_drop]
      omega
    show chunkTokens _ ++ _ = _
    rw [hslice, htake]
    simp
  | step s idx rest hstep hrest ih =>
    obtain ⟨idx2, rest2, hshape⟩ := hrest.head_shape
    have hslice : chunkTokens (⟨joinSp ((words.drop s).take size), idx⟩ : Chunk)
        = (words.drop s).take size :=
      splitWs_joinSp (slice_good hgood s size)
    have hslice2 : chunkTokens (⟨joinSp ((words.drop (s + size - ov)).take size), idx2⟩ : Chunk)
        = (words.drop (s + size - ov)).take size :=
      splitWs_joinSp (slice_good hgood (s + size - ov) size)
    have hheadlen : ov ≤ (chunkTokens (rest.getD 0 dChunk)).length := by
      rw [hshape]
      show ov ≤ (chunkTokens (⟨joinSp ((words.drop (s + size - ov)).take size), idx2⟩ : Chunk)).length
      rw [hslice2, List.length_take, List.length_drop]
      omega
    -- flatten of the dropped-overlap tails equals the drop of the recursive
    -- reconstruction
    have hkey : (rest.map fun c2 => (chunkTokens c2).drop ov).flatten
        = (reconTokens ov rest).drop ov := by
      rw [hshape] at hheadlen ⊢
      show ((chunkTokens _).drop ov) ++ _ = _
      unfold reconTokens
      rw [List.drop_append_of_le_length (by simpa using hheadlen)]
    show chunkTokens _ ++ _ = _
    rw [hslice, hkey, ih]
    rw [List.drop_drop]
    have h2 : s + size - ov + ov = s + size := by omega
    rw [h2]
    have h3 : words.drop (s + size) = (words.drop s).drop size := by
      rw [List.drop_drop, Nat.add_comm]
    rw [h3, List.take_append_drop]

/-- Case analysis of a successful `TextChunker::chunk` run: either there were
no tokens (and no chunks), or the result is a window chain from position 0. -/
theorem chunk_some_cases {self : TextChunker} {text : List Char} {cs : List Chunk}
    (h : self.chunk text = some cs) :
    (splitWs text = [] ∧ cs = []) ∨
    (splitWs text ≠ [] ∧ 1 ≤ self.chunk_size ∧
      WindowChain self.chunk_size self.chunk_overlap (splitWs text) 0 cs) := by
  by_cases hw : splitWs text = []
  · left
    refine ⟨hw, ?_⟩
    unfold TextChunker.chunk at h
    rw [hw] at h
    simp [chunkGo] at h
    exact h
  · right
    have hlen : 0 < (splitWs text).length := List.length_pos.mpr hw
    by_cases hsz : 1 ≤ self.chunk_size
    · refine ⟨hw, hsz, ?_⟩
      obtain ⟨tail, htail, hchain⟩ :=
        chunkGo_windowChain goodWord_of_mem_splitWs hsz
          ((splitWs text).length + 1) 0 0 [] cs hlen h
      simpa [htail] using hchain
    · exfalso
      have hz : self.chunk_size = 0 := by omega
      have := @chunkGo_diverges self.chunk_size self.chunk_overlap
        (splitWs text) (by omega) ((splitWs text).length + 1) 0 0 []
        (by omega)
      unfold TextChunker.chunk at h
      rw [this] at h
      exact absurd h (by simp)

/-- With at least two chunks actually returned, the configuration necessarily
had `chunk_overlap < chunk_size` (otherwise the loop would not have
terminated). -/
theorem ov_lt_size_of_two_chunks {self : TextChunker} {text : List Char}
    {cs : List Chunk} (h : self.chunk text = some cs) (h2 : 2 ≤ cs.length) :
    self.chunk_overlap < self.chunk_size := by
  rcases chunk_some_cases h with ⟨hw, rfl⟩ | ⟨hw, hsz, hchain⟩
  · simp at h2
  · cases hchain with
    | last s idx hl => simp at h2
    | step s idx rest hstep hrest =>
      by_contra hle
      have := @chunkGo_diverges self.chunk_size self.chunk_overlap
        (splitWs text) (by omega) ((splitWs text).length + 1) 0 0 []
        (by omega)
      unfold TextChunker.chunk at h
      rw [this] at h
      exact absurd h (by simp)

/-- C1. Token-window chunking: whenever two or more chunks are produced,
every pair of consecutive chunks shares exactly `min(chunkOverlap,
chunkSize)` tokens — each non-final chunk holds exactly `chunkSize` tokens,
the following chunk's first `min(chunkOverlap, chunkSize)` tokens equal the
previous chunk's last `min(chunkOverlap, chunkSize)` tokens, and the
following chunk continues strictly past the shared tokens. (The final chunk
may be shorter than `chunkSize`; configurations on which the loop does not
terminate return no chunk list at all, which the `some` hypothesis
expresses.) -/
theorem C1_consecutive_overlap (size ov : Nat) (text : List Char) (cs : List Chunk)
    (h : (TextChunker.mk size ov).chunk text = some cs) :
    ∀ i, i + 1 < cs.length →
      (chunkTokens (cs.getD i dChunk)).length = size ∧
      (chunkTokens (cs.getD (i + 1) dChunk)).take (min ov size)
        = (chunkTokens (cs.getD i dChunk)).drop (size - min ov size) ∧
      min ov size < (chunkTokens (cs.getD (i + 1) dChunk)).length := by
  intro i hi
  have h2 : 2 ≤ cs.length := by omega
  have hov : ov < size := ov_lt_size_of_two_chunks h h2
  have hmin : min ov size = ov := by omega
  rw [hmin]
  rcases chunk_some_cases h with ⟨hw, rfl⟩ | ⟨hw, hsz, hchain⟩
  · simp at h2
  · exact windowChain_pairwise goodWord_of_mem_splitWs hov hchain i hi

theorem C1_consecutive_overlap_witness :
    ((TextChunker.mk 2 1).chunk "a b c".toList
        = some [⟨"a b".toList, 0⟩, ⟨"b c".toList, 1⟩]) ∧
    ((chunkTokens (([⟨"a b".toList, 0⟩, ⟨"b c".toList, 1⟩] : List Chunk).getD 0 dChunk)).length = 2 ∧
      (chunkTokens (([⟨"a b".toList, 0⟩, ⟨"b c".toList, 1⟩] : List Chunk).getD 1 dChunk)).take (min 1 2)
        = (chunkTokens (([⟨"a b".toList, 0⟩, ⟨"b c".toList, 1⟩] : List Chunk).getD 0 dChunk)).drop (2 - min 1 2) ∧
      min 1 2 < (chunkTokens (([⟨"a b".toList, 0⟩, ⟨"b c".toList, 1⟩] : List Chunk).getD 1 dChunk)).length) :=
  ⟨by decide, C1_consecutive_overlap 2 1 "a b c".toList
    [⟨"a b".toList, 0⟩, ⟨"b c".toList, 1⟩] (by decide) 0 (by decide)⟩

/-- C2 counterexample. With `chunk_size = 1 = chunk_overlap` and the
two-token input `"a b"`, the window start stays pinned at 0 and the loop of
`TextChunker::chunk` never terminates: no amount of fuel makes the loop
return, so the claim that chunking terminates for every combination of
`chunkSize` and `chunkOverlap` (including `chunkOverlap ≥ chunkSize`) is
false. -/
theorem C2_counterexample :
    chunkLoopDiverges (TextChunker.mk 1 1) "a b".toList ∧
    (TextChunker.mk 1 1).chunk "a b".toList = none := by
  constructor
  · intro fuel idx acc
    exact chunkGo_diverges (by decide) fuel 0 idx acc (by decide)
  · decide

/-- C2 amended. The loop of `TextChunker::chunk` terminates (and returns a
chunk list) exactly when `chunkOverlap < chunkSize` or the input has at most
`chunkSize` whitespace tokens; in every other case (`chunkOverlap ≥
chunkSize` with more than `chunkSize` tokens — including `chunkSize = 0`
with a nonempty token list) the window start never advances and the loop
runs forever. -/
theorem C2_termination_characterization (size ov : Nat) (text : List Char) :
    (∃ cs, (TextChunker.mk size ov).chunk text = some cs)
      ↔ (ov < size ∨ (splitWs text).length ≤ size) := by
  constructor
  · rintro ⟨cs, h⟩
    by_contra hneg
    push_neg at hneg
    have := @chunkGo_diverges size ov (splitWs text)
      (by omega) ((splitWs text).length + 1) 0 0 [] (by omega)
    unfold TextChunker.chunk at h
    rw [this] at h
    exact absurd h (by simp)
  · intro h
    exact chunkGo_terminates h ((splitWs text).length + 1) 0 0 [] (by omega)

/-- C7. Round trip: whenever `TextChunker::chunk` returns a chunk list,
dropping the first `min(chunkOverlap, chunkSize)` tokens of every chunk
after the first and concatenating the chunks' token sequences in order
reconstructs exactly the whitespace-token sequence of the original input. -/
theorem C7_round_trip (size ov : Nat) (text : List Char) (cs : List Chunk)
    (h : (TextChunker.mk size ov).chunk text = some cs) :
    reconTokens (min ov size) cs = splitWs text := by
  rcases chunk_some_cases h with ⟨hw, rfl⟩ | ⟨hw, hsz, hchain⟩
  · simp [reconTokens, hw]
  · rw [show (TextChunker.mk size ov).chunk_size = size from rfl] at hsz
    rw [show (TextChunker.mk size ov).chunk_size = size from rfl,
      show (TextChunker.mk size ov).chunk_overlap = ov from rfl] at hchain
    cases hchain with
    | last s idx hl =>
      show chunkTokens _ ++ _ = _
      have hslice : chunkTokens
          (⟨joinSp (((splitWs text).drop 0).take size), idx⟩ : Chunk)
          = ((splitWs text).drop 0).take size :=
        splitWs_joinSp (slice_good goodWord_of_mem_splitWs 0 size)
      rw [hslice]
      have htake : ((splitWs text).drop 0).take size = (splitWs text).drop 0 := by
        apply List.take_of_length_le
        rw [List.length_drop]
        omega
      rw [htake]
      simp
    | step s idx rest hstep hrest =>
      have hchain2 := @WindowChain.step size ov (splitWs text) 0 idx rest hstep hrest
      have hov : ov < size := by
        by_contra hle
        have := @chunkGo_diverges size ov (splitWs text)
          (by omega) ((splitWs text).length + 1) 0 0 [] (by omega)
        unfold TextChunker.chunk at h
        rw [this] at h
        exact absurd h (by simp)
      have hmin : min ov size = ov := by omega
      rw [hmin]
      have := windowChain_recon goodWord_of_mem_splitWs (le_of_lt hov) hchain2
      simpa using this

theorem C7_round_trip_witness :
    ((TextChunker.mk 2 1).chunk "a b c".toList
        = some [⟨"a b".toList, 0⟩, ⟨"b c".toList, 1⟩]) ∧
    reconTokens (min 1 2) [⟨"a b".toList, 0⟩, ⟨"b c".toList, 1⟩]
      = splitWs "a b c".toList :=
  ⟨by decide, C7_round_trip 2 1 "a b c".toList
    [⟨"a b".toList, 0⟩, ⟨"b c".toList, 1⟩] (by decide)⟩

/-!
Section 3: paragraph-mode chunking (`TextChunker::chunk_by_paragraphs`).
-/

/-- Accumulator worker modelling Rust `str::split("\n\n")`: split on each
(leftmost, non-overlapping) occurrence of a blank line separator. -/
def splitNl2Aux : List Char → List Char → List (List Char)
  | [], cur => [cur.reverse]
  | '\n' :: '\n' :: rest, cur => cur.reverse :: splitNl2Aux rest []
  | c :: rest, cur => splitNl2Aux rest (c :: cur)

/-- `text.split("\n\n")`: the paragraph decomposition of the input. -/
def splitNl2 (s : List Char) : List (List Char) :=
  splitNl2Aux s []

/-- Join paragraphs with a blank-line separator (`"\n\n"`). -/
def joinNl2 : List (List Char) → List Char
  | [] => []
  | [p] => p
  | p :: q :: ps => p ++ '\n' :: '\n' :: joinNl2 (q :: ps)

/-- The string held in `current_chunk` after pushing the paragraphs `g`:
empty paragraphs pushed into an empty buffer leave no separator behind, so
the buffer is the blank-line join of `g` with its leading empty paragraphs
removed. -/
def gstr (g : List (List Char)) : List Char :=
  joinNl2 (g.dropWhile fun p => p.isEmpty)

/-- Loop of `TextChunker::chunk_by_paragraphs`: accumulate paragraphs into
`cur` (the `current_chunk` string) with running token count `curSize`; flush
when adding the next paragraph would overflow `chunk_size` and the buffer
string is nonempty; flush the final nonempty buffer. -/
def chunkParasGo (size : Nat) :
    List (List Char) → List Char → Nat → Nat → List Chunk → List Chunk
  | [], cur, _, index, acc =>
      if trimStr cur = [] then acc else acc ++ [⟨trimStr cur, index⟩]
  | p :: ps, cur, curSize, index, acc =>
      let pw := (splitWs p).length
      if size < curSize + pw ∧ cur ≠ [] then
        let acc2 := if trimStr cur = [] then acc else acc ++ [⟨trimStr cur, index⟩]
        let idx2 := if trimStr cur = [] then index else index + 1
        chunkParasGo size ps p pw idx2 acc2
      else
        chunkParasGo size ps (if cur = [] then p else cur ++ '\n' :: '\n' :: p)
          (curSize + pw) index acc

/-- `TextChunker::chunk_by_paragraphs`. -/
def TextChunker.chunk_by_paragraphs (self : TextChunker) (text : List Char) :
    List Chunk :=
  chunkParasGo self.chunk_size (splitNl2 text) [] 0 0 []

/-- Token count of one paragraph, as computed by the loop. -/
def paraTokens (p : List Char) : Nat :=
  (splitWs p).length

/-- Total token count of a group of paragraphs. -/
def tokenSum (g : List (List Char)) : Nat :=
  (g.map paraTokens).sum

/-- A group consisting of empty paragraphs followed by one paragraph whose
token count exceeds `size`: the shape an oversized paragraph's group takes. -/
def OversizedGroup (size : Nat) (g : List (List Char)) : Prop :=
  ∃ es p, g = es ++ [p] ∧ (∀ e ∈ es, e = ([] : List Char)) ∧ size < paraTokens p

/-- Invariant each paragraph group satisfies: it fits in `chunk_size`
tokens, or it is a single oversized paragraph (possibly preceded by empty
paragraphs, which carry no tokens). -/
def GroupOk (size : Nat) (g : List (List Char)) : Prop :=
  tokenSum g ≤ size ∨ OversizedGroup size g

theorem joinNl2_append_single {xs : List (List Char)} (h : xs ≠ []) (p : List Char) :
    joinNl2 (xs ++ [p]) = joinNl2 xs ++ '\n' :: '\n' :: p := by
  induction xs with
  | nil => exact absurd rfl h
  | cons x xs ih =>
    cases xs with
    | nil => simp [joinNl2]
    | cons y ys =>
      have := ih (by simp)
      simp only [List.cons_append] at this ⊢
      rw [joinNl2, joinNl2, this]
      simp

theorem joinNl2_cons_ne_nil {p : List Char} (hp : p ≠ []) (g : List (List Char)) :
    joinNl2 (p :: g) ≠ [] := by
  cases g with
  | nil => simpa [joinNl2] using hp
  | cons q qs => simp [joinNl2]

theorem gstr_eq_nil_iff {g : List (List Char)} :
    gstr g = [] ↔ ∀ q ∈ g, q = ([] : List Char) := by
  induction g with
  | nil => simp [gstr, joinNl2]
  | cons p g ih =>
    by_cases hp : p = []
    · subst hp
      unfold gstr at ih ⊢
      simp only [List.dropWhile_cons, List.isEmpty_nil, if_true]
      rw [ih]
      constructor
      · intro h q hq
        rcases List.mem_cons.mp hq with h2 | h2
        · exact h2
        · exact h q h2
      · intro h q hq
        exact h q (by simp [hq])
    · constructor
      · intro h
        exfalso
        unfold gstr at h
        rw [List.dropWhile_cons, if_neg (by simpa using hp)] at h
        exact joinNl2_cons_ne_nil hp g h
      · intro h
        exact absurd (h p (by simp)) hp

theorem gstr_singleton (p : List Char) : gstr [p] = p := by
  by_cases hp : p = []
  · subst hp; simp [gstr, joinNl2]
  · unfold gstr
    rw [List.dropWhile_cons, if_neg (by simpa using hp)]
    rfl

theorem gstr_append (g : List (List Char)) (p : List Char) :
    gstr (g ++ [p]) = if gstr g = [] then p else gstr g ++ '\n' :: '\n' :: p := by
  by_cases hall : ∀ q ∈ g, q = ([] : List Char)
  · rw [if_pos (gstr_eq_nil_iff.mpr hall)]
    unfold gstr
    rw [List.dropWhile_append]
    have hdw : (g.dropWhile fun p => p.isEmpty) = [] := by
      rw [List.dropWhile_eq_nil_iff]
      intro x hx
      simp [hall x hx]
    rw [hdw]
    simp only [List.isEmpty_nil, if_true]
    by_cases hp : p = []
    · subst hp; simp [joinNl2]
    · rw [List.dropWhile_cons, if_neg (by simpa using hp)]
      rfl
  · have hne : gstr g ≠ [] := fun h => hall (gstr_eq_nil_iff.mp h)
    rw [if_neg hne]
    unfold gstr
    rw [List.dropWhile_append]
    have hdwne : (g.dropWhile fun p => p.isEmpty) ≠ [] := by
      intro habs
      apply hall
      intro x hx
      have := List.dropWhile_eq_nil_iff.mp habs x hx
      simpa using this
    rw [if_neg (by simpa using hdwne)]
    exact joinNl2_append_single hdwne p

theorem trimStr_cons_ws {c : Char} (h : isWsChar c = true) (s : List Char) :
    trimStr (c :: s) = trimStr s := by
  unfold trimStr
  rw [List.dropWhile_cons, if_pos h]

/-- Trimming ignores the empty paragraphs dropped by the buffer: the trimmed
buffer string equals the trimmed blank-line join of the whole group. -/
theorem trimStr_gstr (g : List (List Char)) :
    trimStr (gstr g) = trimStr (joinNl2 g) := by
  induction g with
  | nil => rfl
  | cons p g ih =>
    by_cases hp : p = []
    · subst hp
      have h1 : gstr ([] :: g) = gstr g := by
        unfold gstr
        rw [List.dropWhile_cons]
        simp
      rw [h1, ih]
      cases g with
      | nil => rfl
      | cons q qs =>
        have h2 : joinNl2 ([] :: q :: qs) = '\n' :: '\n' :: joinNl2 (q :: qs) := by
          rw [joinNl2]
          rfl
        rw [h2, trimStr_cons_ws (by decide), trimStr_cons_ws (by decide)]
    · have h1 : gstr (p :: g) = joinNl2 (p :: g) := by
        unfold gstr
        rw [List.dropWhile_cons, if_neg (by simpa using hp)]
      rw [h1]

theorem tokenSum_append_single (g : List (List Char)) (p : List Char) :
    tokenSum (g ++ [p]) = tokenSum g + paraTokens p := by
  simp [tokenSum]

theorem tokenSum_all_empty {g : List (List Char)}
    (h : ∀ q ∈ g, q = ([] : List Char)) : tokenSum g = 0 := by
  induction g with
  | nil => rfl
  | cons p g ih =>
    have hp : p = [] := h p (by simp)
    have : tokenSum g = 0 := ih fun q hq => h q (by simp [hq])
    subst hp
    simp [tokenSum] at this ⊢
    exact ⟨rfl, this⟩

theorem tokenSum_singleton (p : List Char) : tokenSum [p] = (splitWs p).length := by
  simp [tokenSum, paraTokens]

/-- Main invariant of `chunk_by_paragraphs`: starting with buffered group
`gcur` and remaining paragraphs `ps`, the emitted chunks arise from a
partition of `gcur ++ ps` into consecutive groups — each chunk is the
trimmed blank-line join of one group, whitespace-only groups are dropped,
and every group either fits `chunk_size` or is a lone oversized paragraph. -/
theorem chunkParasGo_partition (size : Nat) :
    ∀ (ps gcur : List (List Char)) (idx : Nat) (acc : List Chunk),
      GroupOk size gcur →
      ∃ pss : List (List (List Char)),
        pss.flatten = gcur ++ ps ∧
        (chunkParasGo size ps (gstr gcur) (tokenSum gcur) idx acc).map Chunk.content
          = acc.map Chunk.content
            ++ ((pss.map fun g => trimStr (joinNl2 g)).filter fun c => !c.isEmpty) ∧
        ∀ g ∈ pss, GroupOk size g := by
  intro ps
  induction ps with
  | nil =>
    intro gcur idx acc hok
    by_cases hg : gcur = []
    · subst hg
      refine ⟨[], by simp, ?_, by simp⟩
      simp [chunkParasGo, gstr, joinNl2, trimStr]
    · refine ⟨[gcur], by simp, ?_, by simpa using hok⟩
      rw [chunkParasGo]
      by_cases ht : trimStr (gstr gcur) = []
      · rw [if_pos ht]
        have ht2 : trimStr (joinNl2 gcur) = [] := by rw [← trimStr_gstr]; exact ht
        simp [ht2]
      · rw [if_neg ht]
        have ht2 : trimStr (joinNl2 gcur) ≠ [] := by rw [← trimStr_gstr]; exact ht
        simp only [List.map_append, List.map_cons, List.map_nil, List.filter]
        rw [trimStr_gstr]
        have : (trimStr (joinNl2 gcur)).isEmpty = false := by
          simpa using ht2
        rw [this]
        rfl
  | cons p ps ih =>
    intro gcur idx acc hok
    have step_eq : chunkParasGo size (p :: ps) (gstr gcur) (tokenSum gcur) idx acc
        = if size < tokenSum gcur + (splitWs p).length ∧ gstr gcur ≠ [] then
            chunkParasGo size ps p (splitWs p).length
              (if trimStr (gstr gcur) = [] then idx else idx + 1)
              (if trimStr (gstr gcur) = [] then acc
                else acc ++ [⟨trimStr (gstr gcur), idx⟩])
          else chunkParasGo size ps
            (if gstr gcur = [] then p else gstr gcur ++ '\n' :: '\n' :: p)
            (tokenSum gcur + (splitWs p).length) idx acc := by
      rw [chunkParasGo]
    by_cases hcond : size < tokenSum gcur + (splitWs p).length ∧ gstr gcur ≠ []
    · -- overflow: flush the buffer (emitting a chunk unless whitespace-only),
      -- then start a fresh buffer holding `p` alone
      have hgsing : GroupOk size [p] := by
        by_cases hpw : (splitWs p).length ≤ size
        · left; rw [tokenSum_singleton]; exact hpw
        · right; exact ⟨[], p, by simp, by simp, by simpa [paraTokens] using hpw⟩
      obtain ⟨pss, hflat, hcontents, hgok⟩ :=
        ih [p] (if trimStr (gstr gcur) = [] then idx else idx + 1)
          (if trimStr (gstr gcur) = [] then acc
            else acc ++ [⟨trimStr (gstr gcur), idx⟩]) hgsing
      rw [gstr_singleton, tokenSum_singleton] at hcontents
      refine ⟨gcur :: pss, ?_, ?_, ?_⟩
      · simp only [List.flatten_cons, hflat]
        simp
      · rw [step_eq, if_pos hcond, hcontents]
        by_cases ht : trimStr (gstr gcur) = []
        · have ht2 : trimStr (joinNl2 gcur) = [] := by rw [← trimStr_gstr]; exact ht
          rw [if_pos ht]
          simp [ht2]
        · have ht2 : (trimStr (joinNl2 gcur)).isEmpty = false := by
            rw [← trimStr_gstr]
            simpa using ht
          rw [if_neg ht]
          simp only [List.map_append, List.map_cons, List.map_nil, List.filter,
            ht2, List.append_assoc, List.cons_append, List.nil_append]
          rw [trimStr_gstr]
          rfl
      · intro g hg
        rcases List.mem_cons.mp hg with h | h
        · subst h; exact hok
        · exact hgok g h
    · -- no overflow: absorb `p` into the running buffer
      have hok2 : GroupOk size (gcur ++ [p]) := by
        by_cases h1 : size < tokenSum gcur + (splitWs p).length
        · have h2 : gstr gcur = [] := by
            by_contra h2
            exact hcond ⟨h1, h2⟩
          have hall : ∀ q ∈ gcur, q = ([] : List Char) := gstr_eq_nil_iff.mp h2
          have hz : tokenSum gcur = 0 := tokenSum_all_empty hall
          right
          refine ⟨gcur, p, rfl, hall, ?_⟩
          simp only [paraTokens]
          omega
        · left
          rw [tokenSum_append_single]
          simp only [paraTokens]
          omega
      obtain ⟨pss, hflat, hcontents, hgok⟩ := ih (gcur ++ [p]) idx acc hok2
      refine ⟨pss, ?_, ?_, hgok⟩
      · rw [hflat]
        simp
      · rw [step_eq, if_neg hcond, ← gstr_append]
        have hts : tokenSum gcur + (splitWs p).length = tokenSum (gcur ++ [p]) := by
          rw [tokenSum_append_single]
          simp [paraTokens]
        rw [hts]
        exact hcontents

/-- C8 amended. Paragraph-mode chunking never splits a paragraph across two
chunks: the emitted chunks arise from a partition of the blank-line-delimited
paragraph sequence into consecutive groups — every paragraph belongs to
exactly one group, each emitted chunk is the trimmed blank-line join of its
group (groups whose join trims to empty are dropped and produce no chunk),
and every group either fits within `chunk_size` tokens or consists of a
single paragraph exceeding `chunk_size` (preceded only by empty paragraphs,
which carry no content), so an oversized paragraph still becomes one chunk
on its own. -/
theorem C8_paragraph_partition (self : TextChunker) (text : List Char) :
    ∃ pss : List (List (List Char)),
      pss.flatten = splitNl2 text ∧
      (self.chunk_by_paragraphs text).map Chunk.content
        = ((pss.map fun g => trimStr (joinNl2 g)).filter fun c => !c.isEmpty) ∧
      ∀ g ∈ pss, tokenSum g ≤ self.chunk_size ∨ OversizedGroup self.chunk_size g := by
  obtain ⟨pss, hflat, hcontents, hgok⟩ :=
    chunkParasGo_partition self.chunk_size (splitNl2 text) [] 0 []
      (Or.inl (by simp [tokenSum]))
  refine ⟨pss, by simpa using hflat, ?_, hgok⟩
  have hg : gstr [] = [] := rfl
  have ht : tokenSum [] = 0 := rfl
  rw [hg, ht] at hcontents
  simpa [TextChunker.chunk_by_paragraphs] using hcontents

/-- C8 counterexample. The input consisting of one space has exactly one
paragraph (the space itself), yet `chunk_by_paragraphs` emits no chunk at
all, so that paragraph does not appear in any emitted chunk — refuting the
claim that each paragraph appears within exactly one emitted chunk. -/
theorem C8_counterexample :
    splitNl2 " ".toList = [[' ']] ∧
    (TextChunker.mk 10 2).chunk_by_paragraphs " ".toList = [] := by
  constructor
  · decide
  · decide

/-!
Section 4: line-mode chunking (`TextChunker::chunk_code`).
-/

/-- Accumulator worker splitting on `'\n'`. -/
def splitNlAux : List Char → List Char → List (List Char)
  | [], cur => [cur.reverse]
  | '\n' :: rest, cur => cur.reverse :: splitNlAux rest []
  | c :: rest, cur => splitNlAux rest (c :: cur)

/-- Strip one trailing carriage return, as Rust `str::lines` does. -/
def stripCr (l : List Char) : List Char :=
  if l.getLast? = some '\r' then l.dropLast else l

/-- Rust `str::lines`: split on newline, no trailing empty line for a
trailing newline, one trailing `'\r'` stripped per line. -/
def linesOf (s : List Char) : List (List Char) :=
  if s = [] then []
  else
    (if s.getLast? = some '\n' then (splitNlAux s []).dropLast
      else splitNlAux s []).map stripCr

/-- Join lines with `'\n'`, modelling `Vec::join("\n")`. -/
def joinNl : List (List Char) → List Char
  | [] => []
  | [l] => l
  | l :: m :: ls => l ++ '\n' :: joinNl (m :: ls)

/-- Loop of `TextChunker::chunk_code`: accumulate lines; on overflow, flush
the buffer as a chunk (unless whitespace-only) and retain its last 5 lines
(`saturating_sub` on the start index) as the seed of the next buffer; the
final nonempty buffer is flushed at the end. -/
def chunkCodeGo (size : Nat) :
    List (List Char) → List (List Char) → Nat → Nat → List Chunk → List Chunk
  | [], curLines, _, index, acc =>
      if curLines = [] then acc
      else if trimStr (joinNl curLines) = [] then acc
      else acc ++ [⟨joinNl curLines, index⟩]
  | l :: ls, curLines, curSize, index, acc =>
      let lw := (splitWs l).length
      if size < curSize + lw ∧ curLines ≠ [] then
        let acc2 := if trimStr (joinNl curLines) = [] then acc
          else acc ++ [⟨joinNl curLines, index⟩]
        let idx2 := if trimStr (joinNl curLines) = [] then index else index + 1
        let kept := curLines.drop (curLines.length - 5)
        chunkCodeGo size ls (kept ++ [l]) (tokenSum kept + lw) idx2 acc2
      else
        chunkCodeGo size ls (curLines ++ [l]) (curSize + lw) index acc

/-- `TextChunker::chunk_code`. -/
def TextChunker.chunk_code (self : TextChunker) (code : List Char) : List Chunk :=
  chunkCodeGo self.chunk_size (linesOf code) [] 0 0 []

/-- Ghost instrumentation of the same loop: the sequence of buffers flushed
by `chunk_code` (overflow flushes in order, then the final buffer if any),
whether or not each produced a chunk. -/
def flushTraceGo (size : Nat) :
    List (List Char) → List (List Char) → Nat → List (List (List Char))
  | [], curLines, _ => if curLines = [] then [] else [curLines]
  | l :: ls, curLines, curSize =>
      let lw := (splitWs l).length
      if size < curSize + lw ∧ curLines ≠ [] then
        let kept := curLines.drop (curLines.length - 5)
        curLines :: flushTraceGo size ls (kept ++ [l]) (tokenSum kept + lw)
      else
        flushTraceGo size ls (curLines ++ [l]) (curSize + lw)

/-- The flushed-buffer trace of a `chunk_code` run. -/
def flushTrace (size : Nat) (code : List Char) : List (List (List Char)) :=
  flushTraceGo size (linesOf code) [] 0

/-- The chunks of `chunk_code` are exactly the flushed buffers whose joined
content does not trim to empty. -/
theorem chunkCodeGo_trace (size : Nat) :
    ∀ (ls curLines : List (List Char)) (curSize idx : Nat) (acc : List Chunk),
      (chunkCodeGo size ls curLines curSize idx acc).map Chunk.content
        = acc.map Chunk.content
          ++ ((flushTraceGo size ls curLines curSize).map joinNl).filter
              (fun c => !(trimStr c).isEmpty) := by
  intro ls
  induction ls with
  | nil =>
    intro curLines curSize idx acc
    by_cases hc : curLines = []
    · simp [chunkCodeGo, flushTraceGo, hc]
    · rw [chunkCodeGo, flushTraceGo, if_neg hc, if_neg hc]
      by_cases ht : trimStr (joinNl curLines) = []
      · rw [if_pos ht]
        simp [List.filter, ht]
      · rw [if_neg ht]
        have : (trimStr (joinNl curLines)).isEmpty = false := by simpa using ht
        simp [List.filter, this]
  | cons l ls ih =>
    intro curLines curSize idx acc
    rw [chunkCodeGo, flushTraceGo]
    by_cases hcond : size < curSize + (splitWs l).length ∧ curLines ≠ []
    · rw [if_pos hcond, if_pos hcond, ih]
      by_cases ht : trimStr (joinNl curLines) = []
      · rw [if_pos ht]
        simp [List.filter, ht]
      · rw [if_neg ht]
        have : (trimStr (joinNl curLines)).isEmpty = false := by simpa using ht
        simp [List.filter, this]
    · rw [if_neg hcond, if_neg hcond, ih]

/-- Every buffer in the flush trace after the first begins with exactly the
last `min 5 n` lines of the previous flushed buffer (`n` its line count):
the overlap-seed retained at the flush is a stable leading segment of the
next buffer. The trace also extends the current buffer at its head. -/
theorem flushTraceGo_chain (size : Nat) :
    ∀ (ls curLines : List (List Char)) (curSize : Nat),
      ((flushTraceGo size ls curLines curSize = []) ∨
        ∃ ext, (flushTraceGo size ls curLines curSize).head? = some (curLines ++ ext)) ∧
      List.Chain' (fun a b => b.take (min 5 a.length) = a.drop (a.length - 5))
        (flushTraceGo size ls curLines curSize) := by
  intro ls
  induction ls with
  | nil =>
    intro curLines curSize
    by_cases hc : curLines = []
    · simp [flushTraceGo, hc]
    · rw [flushTraceGo, if_neg hc]
      exact ⟨Or.inr ⟨[], by simp⟩, by simp⟩
  | cons l ls ih =>
    intro curLines curSize
    rw [flushTraceGo]
    by_cases hcond : size < curSize + (splitWs l).length ∧ curLines ≠ []
    · rw [if_pos hcond]
      obtain ⟨hhead, hchain⟩ :=
        ih (curLines.drop (curLines.length - 5) ++ [l])
          (tokenSum (curLines.drop (curLines.length - 5)) + (splitWs l).length)
      refine ⟨Or.inr ⟨[], by simp⟩, ?_⟩
      rw [List.chain'_cons']
      refine ⟨?_, hchain⟩
      intro b hb
      rcases hhead with htr | ⟨ext, hext⟩
      · rw [htr] at hb
        simp at hb
      · rw [hext] at hb
        simp only [Option.mem_def, Option.some.injEq] at hb
        subst hb
        have hklen : (curLines.drop (curLines.length - 5)).length
            = min 5 curLines.length := by
          rw [List.length_drop]
          omega
        rw [← hklen, List.append_assoc, List.take_left]
    · rw [if_neg hcond]
      obtain ⟨hhead, hchain⟩ := ih (curLines ++ [l]) (curSize + (splitWs l).length)
      refine ⟨?_, hchain⟩
      rcases hhead with htr | ⟨ext, hext⟩
      · exact Or.inl htr
      · exact Or.inr ⟨[l] ++ ext, by rw [hext]; simp⟩

/-- C9 amended. In `chunk_code`, after each overflow flush the new buffer
starts with exactly the last `min(5, n)` lines of the buffer just flushed
(`n` its line count), so consecutive entries of the flushed-buffer trace
always satisfy the leading-lines relation; the emitted chunks are exactly
the flushed buffers whose joined content is not whitespace-only. The
claimed relation between consecutive EMITTED chunks therefore holds
whenever no whitespace-only buffer was flushed (and dropped) between them,
but not in general. -/
theorem C9_overlap_seed (self : TextChunker) (code : List Char) :
    (self.chunk_code code).map Chunk.content
      = ((flushTrace self.chunk_size code).map joinNl).filter
          (fun c => !(trimStr c).isEmpty) ∧
    List.Chain' (fun a b => b.take (min 5 a.length) = a.drop (a.length - 5))
      (flushTrace self.chunk_size code) :=
  ⟨chunkCodeGo_trace self.chunk_size (linesOf code) [] 0 0 [],
    (flushTraceGo_chain self.chunk_size (linesOf code) [] 0).2⟩

/-- C9 counterexample. With `chunk_size = 1` and this input, the buffer
flushed while processing the line `"x y"` is whitespace-only, so it is
dropped (9 buffers are flushed but only 8 chunks are emitted). Chunk 5
(emitted by an overflow flush) and chunk 6 (the next emitted chunk) then
violate the claimed relation: chunk 6's leading `min(5, 6)` lines are the
last 5 lines of the dropped whitespace-only buffer, not the last 5 lines of
chunk 5. -/
theorem C9_counterexample :
    (((TextChunker.mk 1 0).chunk_code
        "a b\n \n  \n   \n    \n     \n      \nx y\n ".toList).length = 8 ∧
      (flushTrace 1 "a b\n \n  \n   \n    \n     \n      \nx y\n ".toList).length = 9) ∧
    (linesOf ((((TextChunker.mk 1 0).chunk_code
          "a b\n \n  \n   \n    \n     \n      \nx y\n ".toList).getD 6 dChunk).content)).take
        (min 5 (linesOf ((((TextChunker.mk 1 0).chunk_code
          "a b\n \n  \n   \n    \n     \n      \nx y\n ".toList).getD 5 dChunk).content)).length)
      ≠ (linesOf ((((TextChunker.mk 1 0).chunk_code
          "a b\n \n  \n   \n    \n     \n      \nx y\n ".toList).getD 5 dChunk).content)).drop
          ((linesOf ((((TextChunker.mk 1 0).chunk_code
            "a b\n \n  \n   \n    \n     \n      \nx y\n ".toList).getD 5 dChunk).content)).length - 5) := by
  refine ⟨⟨?_, ?_⟩, ?_⟩
  · decide
  · decide
  · decide

/-!
Section 5: scheduler and metadata (`src/scheduler/mod.rs`). The scheduler's
clock and timezone are modelled by passing the current hour (already
converted to the configured timezone) and the current time explicitly;
RFC 3339 parsing (chrono, an external library) is modelled as an abstract
partial parser `String → Option Int` returning epoch seconds.
-/

/-- `SourceMetadata` record from `scheduler/mod.rs`. -/
structure SourceMetadata where
  source : String
  source_type : String
  last_commit_hash : Option String
  last_check : Option String
  last_update : Option String
  owner : Option String
  repo : Option String
  branch : Option String
  local_path : Option String
deriving Repr, DecidableEq

/-- `MetadataStore`: mapping from source id to metadata (the `HashMap` is
modelled by its lookup function; persistence is outside this model). -/
structure MetadataStore where
  sources : String → Option SourceMetadata

/-- `MetadataStore::get`. -/
def MetadataStore.get (self : MetadataStore) (source : String) :
    Option SourceMetadata :=
  self.sources source

/-- `MetadataStore::upsert`: replace-or-insert keyed by `metadata.source`. -/
def MetadataStore.upsert (self : MetadataStore) (metadata : SourceMetadata) :
    MetadataStore :=
  ⟨fun k => if k = metadata.source then some metadata else self.sources k⟩

/-- The pure configuration of `Scheduler` (metadata path and timezone are
consumed by the modelled-out IO layer; the timezone enters through the
`hour` argument of the time queries). -/
structure Scheduler where
  check_interval_hours : Nat
  window_start : Nat
  window_end : Nat
deriving Repr, DecidableEq

/-- `Scheduler::is_in_download_window`, as a function of the current hour in
the configured timezone. -/
def Scheduler.is_in_download_window (self : Scheduler) (hour : Nat) : Bool :=
  if self.window_end < self.window_start then
    decide (self.window_start ≤ hour) || decide (hour < self.window_end)
  else
    decide (self.window_start ≤ hour) && decide (hour < self.window_end)

/-- `Scheduler::time_until_window` (seconds), as a function of the current
hour. -/
def Scheduler.time_until_window (self : Scheduler) (hour : Nat) : Nat :=
  let hoursUntil :=
    if self.window_end < self.window_start then
      if self.window_start ≤ hour ∨ hour < self.window_end then 0
      else if hour < self.window_start then self.window_start - hour
      else 24 - hour + self.window_start
    else if self.window_start ≤ hour ∧ hour < self.window_end then 0
    else if hour < self.window_start then self.window_start - hour
    else 24 - hour + self.window_start
  hoursUntil * 3600

/-- `Scheduler::needs_check`: true when `last_check` is absent OR the stored
string fails to parse as RFC 3339; otherwise compares whole elapsed hours
(`num_hours` truncates toward zero, as does `Int.div`) with the interval. -/
def Scheduler.needs_check (self : Scheduler) (parse : String → Option Int)
    (nowSec : Int) (metadata : SourceMetadata) : Bool :=
  match metadata.last_check with
  | some last_check =>
    match parse last_check with
    | some t => decide ((self.check_interval_hours : Int) ≤ Int.tdiv (nowSec - t) 3600)
    | none => true
  | none => true

/-- `Scheduler::has_updates`, given the already-resolved current HEAD hash of
the local clone: changed when no fingerprint is stored or it differs. -/
def Scheduler.has_updates (_self : Scheduler) (metadata : SourceMetadata)
    (current_hash : String) : Bool :=
  match metadata.last_commit_hash with
  | some stored => decide (stored ≠ current_hash)
  | none => true

/-- `Scheduler::update_check_time`: sets `last_check = now` only. -/
def Scheduler.update_check_time (_self : Scheduler) (now : String)
    (metadata : SourceMetadata) : SourceMetadata :=
  { metadata with last_check := some now }

/-- `Scheduler::update_after_refresh`: sets the fingerprint to the clone's
current HEAD and both timestamps to now. -/
def Scheduler.update_after_refresh (_self : Scheduler) (now commit_hash : String)
    (metadata : SourceMetadata) : SourceMetadata :=
  { metadata with
    last_commit_hash := some commit_hash
    last_check := some now
    last_update := some now }

/-!
Section 6: the update orchestration of `src/main.rs`
(`index_documents_simple` and `handle_update_run`). External collaborators
(filesystem, git, repository loader) are an explicit environment; the calls
made to the vector store (and the git syncs) are collected as a trace of
operations. Embedding vectors and freshly generated UUIDs do not affect any
claim and are omitted from the document record.
-/

/-- `DocumentWithEmbedding` (storage record), without the generated UUID and
the embedding vector. -/
structure DocumentWithEmbedding where
  content : List Char
  source : String
  source_type : String
  file_path : String
  chunk_index : Nat
  created_at : String
deriving Repr, DecidableEq

/-- Externally visible operations the run performs, in order. -/
inductive StoreOp where
  | gitSync (owner repo branch : String)
  | deleteBySource (source : String)
  | insertBatch (docs : List DocumentWithEmbedding)
deriving Repr, DecidableEq

/-- Inner loop of `index_documents_simple` over one file's chunks: push each
document into the batch and flush (`insert_batch`) whenever the batch
reaches 100. Returns the insert ops emitted, the open batch, and the running
total. -/
def indexChunksGo (now source source_type file_path : String) :
    List Chunk → List DocumentWithEmbedding → Nat →
      List StoreOp × List DocumentWithEmbedding × Nat
  | [], batch, total => ([], batch, total)
  | c :: cs, batch, total =>
    let d : DocumentWithEmbedding :=
      { content := c.content, source := source, source_type := source_type,
        file_path := file_path, chunk_index := c.index, created_at := now }
    let b := batch ++ [d]
    let t := total + 1
    if 100 ≤ b.length then
      let r := indexChunksGo now source source_type file_path cs [] t
      (StoreOp.insertBatch b :: r.1, r.2)
    else
      indexChunksGo now source source_type file_path cs b t

/-- Outer loop of `index_documents_simple` over the loaded documents; the
open batch persists across files. -/
def indexDocsGo (now source source_type : String) :
    List (String × String × List Chunk) → List DocumentWithEmbedding → Nat →
      List StoreOp × List DocumentWithEmbedding × Nat
  | [], batch, total => ([], batch, total)
  | doc :: rest, batch, total =>
    let r := indexChunksGo now source source_type doc.2.1 doc.2.2 batch total
    let r2 := indexDocsGo now source source_type rest r.2.1 r.2.2
    (r.1 ++ r2.1, r2.2)

/-- `index_documents_simple`: iterate all chunks of all documents, flush any
final partial batch, and return the ops trace with the total indexed. -/
def index_documents_simple (now source source_type : String)
    (documents : List (String × String × List Chunk)) : List StoreOp × Nat :=
  let r := indexDocsGo now source source_type documents [] 0
  (r.1 ++ (if r.2.1 = [] then [] else [StoreOp.insertBatch r.2.1]), r.2.2)

/-- Total number of chunks across a loaded document set. -/
def totalChunks (documents : List (String × String × List Chunk)) : Nat :=
  (documents.map fun d => d.2.2.length).sum

/-- Total number of documents passed to `insert` calls in an ops trace. -/
def insertedTotal (ops : List StoreOp) : Nat :=
  (ops.map fun op =>
    match op with
    | StoreOp.insertBatch b => b.length
    | _ => 0).sum

/-- Storage-mutating operations (`deleteBySource` / `insert`). -/
def isStorageWrite : StoreOp → Bool
  | StoreOp.deleteBySource _ => true
  | StoreOp.insertBatch _ => true
  | StoreOp.gitSync _ _ _ => false

theorem insertedTotal_append (a b : List StoreOp) :
    insertedTotal (a ++ b) = insertedTotal a + insertedTotal b := by
  simp [insertedTotal]

theorem insertedTotal_cons_insert (b : List DocumentWithEmbedding) (ops : List StoreOp) :
    insertedTotal (StoreOp.insertBatch b :: ops) = b.length + insertedTotal ops := by
  simp [insertedTotal]

theorem indexChunksGo_spec (now source source_type file_path : String) :
    ∀ (cs : List Chunk) (batch : List DocumentWithEmbedding) (total : Nat),
      insertedTotal (indexChunksGo now source source_type file_path cs batch total).1
          + (indexChunksGo now source source_type file_path cs batch total).2.1.length
        = batch.length + cs.length ∧
      (indexChunksGo now source source_type file_path cs batch total).2.2
        = total + cs.length ∧
      ∀ op ∈ (indexChunksGo now source source_type file_path cs batch total).1,
        ∃ b, op = StoreOp.insertBatch b := by
  intro cs
  induction cs with
  | nil => intro batch total; simp [indexChunksGo, insertedTotal]
  | cons c cs ih =>
    intro batch total
    set d : DocumentWithEmbedding :=
      { content := c.content, source := source, source_type := source_type,
        file_path := file_path, chunk_index := c.index, created_at := now } with hd
    by_cases hb : 100 ≤ (batch ++ [d]).length
    · have hstep : indexChunksGo now source source_type file_path (c :: cs) batch total
          = (StoreOp.insertBatch (batch ++ [d])
              :: (indexChunksGo now source source_type file_path cs [] (total + 1)).1,
             (indexChunksGo now source source_type file_path cs [] (total + 1)).2) := by
        rw [indexChunksGo, hd, if_pos hb]
      obtain ⟨h1, h2, h3⟩ := ih [] (total + 1)
      rw [hstep]
      refine ⟨?_, ?_, ?_⟩
      · rw [insertedTotal_cons_insert]
        simp only [List.length_append, List.length_cons, List.length_nil] at h1 ⊢
        omega
      · simp only [List.length_cons]
        omega
      · intro op hop
        rcases List.mem_cons.mp hop with h | h
        · exact ⟨_, h⟩
        · exact h3 op h
    · have hstep : indexChunksGo now source source_type file_path (c :: cs) batch total
          = indexChunksGo now source source_type file_path cs (batch ++ [d]) (total + 1) := by
        rw [indexChunksGo, hd, if_neg hb]
      obtain ⟨h1, h2, h3⟩ := ih (batch ++ [d]) (total + 1)
      rw [hstep]
      refine ⟨?_, ?_, h3⟩
      · simp only [List.length_append, List.length_cons, List.length_nil] at h1 ⊢
        omega
      · simp only [List.length_cons]
        omega

theorem indexDocsGo_spec (now source source_type : String) :
    ∀ (documents : List (String × String × List Chunk))
      (batch : List DocumentWithEmbedding) (total : Nat),
      insertedTotal (indexDocsGo now source source_type documents batch total).1
          + (indexDocsGo now source source_type documents batch total).2.1.length
        = batch.length + totalChunks documents ∧
      (indexDocsGo now source source_type documents batch total).2.2
        = total + totalChunks documents ∧
      ∀ op ∈ (indexDocsGo now source source_type documents batch total).1,
        ∃ b, op = StoreOp.insertBatch b := by
  intro documents
  induction documents with
  | nil => intro batch total; simp [indexDocsGo, insertedTotal, totalChunks]
  | cons doc rest ih =>
    intro batch total
    obtain ⟨h1, h2, h3⟩ := indexChunksGo_spec now source source_type doc.2.1 doc.2.2 batch total
    obtain ⟨g1, g2, g3⟩ := ih
      (indexChunksGo now source source_type doc.2.1 doc.2.2 batch total).2.1
      (indexChunksGo now source source_type doc.2.1 doc.2.2 batch total).2.2
    have ht : totalChunks (doc :: rest) = doc.2.2.length + totalChunks rest := by
      simp [totalChunks]
    refine ⟨?_, ?_, ?_⟩
    · simp only [indexDocsGo, insertedTotal_append]
      rw [ht]
      omega
    · simp only [indexDocsGo]
      rw [g2, h2, ht]
      omega
    · simp only [indexDocsGo]
      intro op hop
      rcases List.mem_append.mp hop with h | h
      · exact h3 op h
      · exact g3 op h

/-- `index_documents_simple` spec: the insert calls carry exactly the chunks
of the loaded document set, the returned count equals the total chunk count,
and every emitted op is an insert. -/
theorem index_documents_simple_spec (now source source_type : String)
    (documents : List (String × String × List Chunk)) :
    insertedTotal (index_documents_simple now source source_type documents).1
      = totalChunks documents ∧
    (index_documents_simple now source source_type documents).2
      = totalChunks documents ∧
    ∀ op ∈ (index_documents_simple now source source_type documents).1,
      ∃ b, op = StoreOp.insertBatch b := by
  obtain ⟨h1, h2, h3⟩ := indexDocsGo_spec now source source_type documents [] 0
  unfold index_documents_simple
  refine ⟨?_, by simpa using h2, ?_⟩
  · rw [insertedTotal_append]
    by_cases hb : (indexDocsGo now source source_type documents [] 0).2.1 = []
    · rw [if_pos hb]
      rw [hb] at h1
      simp [insertedTotal] at h1 ⊢
      omega
    · rw [if_neg hb]
      simp [insertedTotal] at h1 ⊢
      omega
  · intro op hop
    rcases List.mem_append.mp hop with h | h
    · exact h3 op h
    · by_cases hb : (indexDocsGo now source source_type documents [] 0).2.1 = []
      · rw [if_pos hb] at h
        simp at h
      · rw [if_neg hb] at h
        simp at h
        exact ⟨_, h⟩

theorem ops_ne_nil_of_insertedTotal_pos {ops : List StoreOp}
    (h : 1 ≤ insertedTotal ops) : ops ≠ [] := by
  intro habs
  rw [habs] at h
  simp [insertedTotal] at h

/-- External collaborators of `handle_update_run`: filesystem existence,
`GitHubLoader::clone_or_update` success, the synced clone's resolved HEAD
commit (`none` models a `get_current_commit_hash` error), and
`GitHubLoader::load_repo`. -/
structure Env where
  pathExists : String → Bool
  cloneOk : String → String → String → Bool
  headHash : String → Option String
  loadRepo : String → List (String × String × List Chunk)

/-- Body of the per-source loop of `handle_update_run` (`src/main.rs`):
returns the operations performed, the updated metadata store, and the
`updated` / `skipped` report entries for this source. -/
def processSource (env : Env) (sched : Scheduler) (now : String)
    (store : MetadataStore) (source : String) :
    List StoreOp × MetadataStore × List (String × Nat) × List (String × String) :=
  match store.get source with
  | none => ([], store, [], [(source, "Not in metadata")])
  | some meta =>
    match meta.local_path, meta.owner, meta.repo, meta.branch with
    | some local_path, some owner, some repo, some branch =>
      if env.pathExists local_path then
        if env.cloneOk owner repo branch then
          match env.headHash local_path with
          | none =>
            ([StoreOp.gitSync owner repo branch], store, [],
              [(source, "Error: could not resolve HEAD")])
          | some current =>
            if sched.has_updates meta current then
              let documents := env.loadRepo local_path
              let r := index_documents_simple now source "github" documents
              (StoreOp.gitSync owner repo branch
                  :: StoreOp.deleteBySource source :: r.1,
                store.upsert (sched.update_after_refresh now current meta),
                [(source, r.2)], [])
            else
              ([StoreOp.gitSync owner repo branch],
                store.upsert (sched.update_check_time now meta), [],
                [(source, "Already up to date")])
        else
          ([StoreOp.gitSync owner repo branch], store, [],
            [(source, "Failed to fetch")])
      else
        ([], store, [], [(source, "Local path not found")])
    | _, _, _, _ => ([], store, [], [(source, "Not a GitHub source")])

/-- Fold of `processSource` over all indexed sources, accumulating the
operation trace and the report. -/
def runSources (env : Env) (sched : Scheduler) (now : String) :
    List String → MetadataStore → List StoreOp → List (String × Nat) →
      List (String × String) →
      List StoreOp × MetadataStore × List (String × Nat) × List (String × String)
  | [], store, ops, upd, skip => (ops, store, upd, skip)
  | s :: rest, store, ops, upd, skip =>
    let r := processSource env sched now store s
    runSources env sched now rest r.2.1 (ops ++ r.1) (upd ++ r.2.2.1)
      (skip ++ r.2.2.2)

/-- Result of one `update run`: either blocked outside the download window
(reporting the seconds until it opens, with nothing performed) or completed
with the operation trace, final metadata store and report. -/
inductive RunOutcome where
  | blocked (secondsUntilWindow : Nat)
  | completed (ops : List StoreOp) (store : MetadataStore)
      (updated : List (String × Nat)) (skipped : List (String × String))

/-- `handle_update_run`: outside the window and without `--force`, report
the time until the window and return without touching anything; otherwise
process every indexed source. -/
def handle_update_run (env : Env) (sched : Scheduler) (hour : Nat) (now : String)
    (force : Bool) (store : MetadataStore) (indexed_sources : List String) :
    RunOutcome :=
  let in_window := sched.is_in_download_window hour
  if in_window = false ∧ force = false then
    RunOutcome.blocked (sched.time_until_window hour)
  else
    let r := runSources env sched now indexed_sources store [] [] []
    RunOutcome.completed r.1 r.2.1 r.2.2.1 r.2.2.2

/-- Operations performed by a run (a blocked run performs none). -/
def runOps : RunOutcome → List StoreOp
  | RunOutcome.blocked _ => []
  | RunOutcome.completed ops _ _ _ => ops

/-- Metadata store after a run (a blocked run leaves it untouched). -/
def finalStore (orig : MetadataStore) : RunOutcome → MetadataStore
  | RunOutcome.blocked _ => orig
  | RunOutcome.completed _ st _ _ => st

theorem upsert_get_self (store : MetadataStore) (m : SourceMetadata) :
    (store.upsert m).get m.source = some m := by
  simp [MetadataStore.upsert, MetadataStore.get]

/-- C3. Changed-source refresh: for a tracked git source whose stored
fingerprint differs from the re-synced clone's resolved HEAD, the run
performs the git sync, then exactly one `deleteBySource` for that source,
then only insert calls whose total document count equals the total chunk
count of the freshly loaded document set (at least one insert when any
chunk was loaded), and records the refresh by setting the stored fingerprint
to the new HEAD with `last_check = last_update = now`. -/
theorem C3_changed_source_refresh
    (env : Env) (sched : Scheduler) (hour : Nat) (now : String) (force : Bool)
    (store : MetadataStore)
    (source local_path owner repo branch hOld hNew : String)
    (meta : SourceMetadata)
    (hmeta : store.get source = some meta)
    (hsrc : meta.source = source)
    (hlp : meta.local_path = some local_path)
    (how : meta.owner = some owner)
    (hrp : meta.repo = some repo)
    (hbr : meta.branch = some branch)
    (hstored : meta.last_commit_hash = some hOld)
    (hhead : env.headHash local_path = some hNew)
    (hne : hOld ≠ hNew)
    (hpe : env.pathExists local_path = true)
    (hco : env.cloneOk owner repo branch = true)
    (hwin : sched.is_in_download_window hour = true)
    (hchunks : 1 ≤ totalChunks (env.loadRepo local_path)) :
    handle_update_run env sched hour now force store [source]
      = RunOutcome.completed
          (StoreOp.gitSync owner repo branch :: StoreOp.deleteBySource source
            :: (index_documents_simple now source "github" (env.loadRepo local_path)).1)
          (store.upsert (sched.update_after_refresh now hNew meta))
          [(source, totalChunks (env.loadRepo local_path))]
          [] ∧
    (∀ op ∈ (index_documents_simple now source "github" (env.loadRepo local_path)).1,
      ∃ b, op = StoreOp.insertBatch b) ∧
    insertedTotal (index_documents_simple now source "github" (env.loadRepo local_path)).1
      = totalChunks (env.loadRepo local_path) ∧
    (index_documents_simple now source "github" (env.loadRepo local_path)).1 ≠ [] ∧
    (store.upsert (sched.update_after_refresh now hNew meta)).get source
      = some { meta with
                last_commit_hash := some hNew
                last_check := some now
                last_update := some now } := by
  obtain ⟨i1, i2, i3⟩ := index_documents_simple_spec now source "github" (env.loadRepo local_path)
  have hupd : sched.has_updates meta hNew = true := by
    unfold Scheduler.has_updates
    rw [hstored]
    simpa using hne
  have hproc : processSource env sched now store source
      = (StoreOp.gitSync owner repo branch :: StoreOp.deleteBySource source
          :: (index_documents_simple now source "github" (env.loadRepo local_path)).1,
        store.upsert (sched.update_after_refresh now hNew meta),
        [(source, (index_documents_simple now source "github" (env.loadRepo local_path)).2)],
        []) := by
    unfold processSource
    rw [hmeta]
    simp only [hlp, how, hrp, hbr, hpe, hco, hhead, hupd, if_true]
  refine ⟨?_, i3, i1, ?_, ?_⟩
  · unfold handle_update_run
    rw [hwin]
    simp only [Bool.true_eq_false, false_and, if_false]
    rw [runSources, hproc]
    rw [runSources]
    rw [i2]
    simp
  · apply ops_ne_nil_of_insertedTotal_pos
    omega
  · rw [← hsrc]
    have heq : { meta with
        last_commit_hash := some hNew
        last_check := some now
        last_update := some now }
        = sched.update_after_refresh now hNew meta := rfl
    rw [heq]
    exact upsert_get_self store _

/-- C4. Unchanged-source refresh: when the stored fingerprint equals the
re-synced clone's HEAD, the run performs only the git sync for that source —
no storage delete or insert is ever invoked — and records the check only:
`last_check` is set to now and the fingerprint is left untouched. -/
theorem C4_unchanged_source_refresh
    (env : Env) (sched : Scheduler) (hour : Nat) (now : String) (force : Bool)
    (store : MetadataStore)
    (source local_path owner repo branch fp : String)
    (meta : SourceMetadata)
    (hmeta : store.get source = some meta)
    (hsrc : meta.source = source)
    (hlp : meta.local_path = some local_path)
    (how : meta.owner = some owner)
    (hrp : meta.repo = some repo)
    (hbr : meta.branch = some branch)
    (hstored : meta.last_commit_hash = some fp)
    (hhead : env.headHash local_path = some fp)
    (hpe : env.pathExists local_path = true)
    (hco : env.cloneOk owner repo branch = true)
    (hwin : sched.is_in_download_window hour = true) :
    handle_update_run env sched hour now force store [source]
      = RunOutcome.completed [StoreOp.gitSync owner repo branch]
          (store.upsert (sched.update_check_time now meta))
          [] [(source, "Already up to date")] ∧
    (∀ op ∈ runOps (handle_update_run env sched hour now force store [source]),
      isStorageWrite op = false) ∧
    (store.upsert (sched.update_check_time now meta)).get source
      = some { meta with last_check := some now } := by
  have hupd : sched.has_updates meta fp = false := by
    unfold Scheduler.has_updates
    rw [hstored]
    simp
  have hproc : processSource env sched now store source
      = ([StoreOp.gitSync owner repo branch],
          store.upsert (sched.update_check_time now meta), [],
          [(source, "Already up to date")]) := by
    unfold processSource
    rw [hmeta]
    simp only [hlp, how, hrp, hbr, hpe, hco, hhead, hupd, if_true,
      Bool.false_eq_true, if_false]
  have hrun : handle_update_run env sched hour now force store [source]
      = RunOutcome.completed [StoreOp.gitSync owner repo branch]
          (store.upsert (sched.update_check_time now meta))
          [] [(source, "Already up to date")] := by
    unfold handle_update_run
    rw [hwin]
    simp only [Bool.true_eq_false, false_and, if_false]
    rw [runSources, hproc]
    rw [runSources]
    simp
  refine ⟨hrun, ?_, ?_⟩
  · rw [hrun]
    intro op hop
    simp only [runOps, List.mem_singleton] at hop
    subst hop
    rfl
  · rw [← hsrc]
    have heq : { meta with last_check := some now }
        = sched.update_check_time now meta := rfl
    rw [heq]
    exact upsert_get_self store _

/-- C5. Window gating: when the current hour is outside the configured
window and force is false, the update run performs no git sync, no
`deleteBySource`, no insert and no metadata mutation for any source — it
returns a blocked report carrying the time until the window; with the force
flag the run proceeds to completion instead. -/
theorem C5_window_gating
    (env : Env) (sched : Scheduler) (hour : Nat) (now : String)
    (store : MetadataStore) (sources : List String)
    (hw : sched.is_in_download_window hour = false) :
    (handle_update_run env sched hour now false store sources
        = RunOutcome.blocked (sched.time_until_window hour) ∧
      runOps (handle_update_run env sched hour now false store sources) = [] ∧
      finalStore store (handle_update_run env sched hour now false store sources)
        = store) ∧
    ∃ ops st upd skip,
      handle_update_run env sched hour now true store sources
        = RunOutcome.completed ops st upd skip := by
  have h1 : handle_update_run env sched hour now false store sources
      = RunOutcome.blocked (sched.time_until_window hour) := by
    unfold handle_update_run
    rw [hw]
    simp
  refine ⟨⟨h1, by rw [h1]; rfl, by rw [h1]; rfl⟩, ?_⟩
  unfold handle_update_run
  simp only [Bool.true_eq_false, and_false, if_false]
  exact ⟨_, _, _, _, rfl⟩

/-- C6. `is_in_download_window` as a function of the current hour: when
`windowStart ≤ windowEnd` it is true exactly for `windowStart ≤ h <
windowEnd`; when `windowStart > windowEnd` (wrapping midnight) it is true
exactly when `h ≥ windowStart` or `h < windowEnd`; verified in addition at
the boundary hours (start, end, end-1, start-1) of the non-wrapping
`(9, 17)` and wrapping `(22, 8)` configurations. -/
theorem C6_window_membership :
    (∀ (sched : Scheduler) (h : Nat),
      (sched.is_in_download_window h = true ↔
        if sched.window_start ≤ sched.window_end
        then sched.window_start ≤ h ∧ h < sched.window_end
        else (sched.window_start ≤ h ∨ h < sched.window_end))) ∧
    ((Scheduler.mk 0 9 17).is_in_download_window 9 = true ∧
      (Scheduler.mk 0 9 17).is_in_download_window 17 = false ∧
      (Scheduler.mk 0 9 17).is_in_download_window 16 = true ∧
      (Scheduler.mk 0 9 17).is_in_download_window 8 = false) ∧
    ((Scheduler.mk 0 22 8).is_in_download_window 22 = true ∧
      (Scheduler.mk 0 22 8).is_in_download_window 8 = false ∧
      (Scheduler.mk 0 22 8).is_in_download_window 7 = true ∧
      (Scheduler.mk 0 22 8).is_in_download_window 21 = false) := by
  refine ⟨?_, by decide, by decide⟩
  intro sched h
  unfold Scheduler.is_in_download_window
  by_cases hc : sched.window_end < sched.window_start
  · rw [if_pos hc, if_neg (by omega)]
    simp
  · rw [if_neg hc, if_pos (by omega)]
    simp

/-- C10. `needs_check` treats a present but unparseable `last_check`
timestamp exactly like an absent one: it returns true (the source becomes
due for a check) whatever the interval and current time. -/
theorem C10_needs_check_unparseable (sched : Scheduler)
    (parse : String → Option Int) (nowSec : Int) (m : SourceMetadata) (s : String)
    (hs : m.last_check = some s) (hp : parse s = none) :
    sched.needs_check parse nowSec m = true ∧
    sched.needs_check parse nowSec m
      = sched.needs_check parse nowSec { m with last_check := none } := by
  unfold Scheduler.needs_check
  rw [hs]
  simp [hp]

def metaW (hash : String) : SourceMetadata :=
  { source := "github:o/r"
    source_type := "github"
    last_commit_hash := some hash
    last_check := none
    last_update := none
    owner := some "o"
    repo := some "r"
    branch := some "b"
    local_path := some "/p" }

def envW (h : String) : Env :=
  { pathExists := fun _ => true
    cloneOk := fun _ _ _ => true
    headHash := fun _ => some h
    loadRepo := fun _ => [("github:o/r", "f.rs", [⟨['a'], 0⟩])] }

def storeW (hash : String) : MetadataStore := ⟨fun _ => some (metaW hash)⟩

def schedW : Scheduler := ⟨6, 22, 8⟩

def metaBadCheck : SourceMetadata :=
  { metaW "abc123" with last_check := some "not-a-timestamp" }

theorem C3_changed_source_refresh_witness :
    ((storeW "abc123").get "github:o/r" = some (metaW "abc123") ∧
      (envW "def456").headHash "/p" = some "def456" ∧
      schedW.is_in_download_window 23 = true) ∧
    insertedTotal (index_documents_simple "T" "github:o/r" "github"
        ((envW "def456").loadRepo "/p")).1
      = totalChunks ((envW "def456").loadRepo "/p") :=
  ⟨⟨rfl, rfl, by decide⟩,
    (C3_changed_source_refresh (envW "def456") schedW 23 "T" false (storeW "abc123")
      "github:o/r" "/p" "o" "r" "b" "abc123" "def456" (metaW "abc123")
      rfl rfl rfl rfl rfl rfl rfl rfl (by decide) rfl rfl (by decide) (by decide)).2.2.1⟩

theorem C4_unchanged_source_refresh_witness :
    ((storeW "abc123").get "github:o/r" = some (metaW "abc123") ∧
      (envW "abc123").headHash "/p" = some "abc123") ∧
    ((storeW "abc123").upsert
        (schedW.update_check_time "T" (metaW "abc123"))).get "github:o/r"
      = some { metaW "abc123" with last_check := some "T" } :=
  ⟨⟨rfl, rfl⟩,
    (C4_unchanged_source_refresh (envW "abc123") schedW 23 "T" false (storeW "abc123")
      "github:o/r" "/p" "o" "r" "b" "abc123" (metaW "abc123")
      rfl rfl rfl rfl rfl rfl rfl rfl rfl rfl (by decide)).2.2⟩

theorem C5_window_gating_witness :
    schedW.is_in_download_window 12 = false ∧
    handle_update_run (envW "h") schedW 12 "T" false (storeW "h") ["github:o/r"]
      = RunOutcome.blocked (schedW.time_until_window 12) :=
  ⟨by decide,
    (C5_window_gating (envW "h") schedW 12 "T" (storeW "h") ["github:o/r"]
      (by decide)).1.1⟩

theorem C10_needs_check_unparseable_witness :
    metaBadCheck.last_check = some "not-a-timestamp" ∧
    schedW.needs_check (fun _ => none) 0 metaBadCheck = true :=
  ⟨rfl,
    (C10_needs_check_unparseable schedW (fun _ => none) 0 metaBadCheck
      "not-a-timestamp" rfl rfl).1⟩
